import Mathlib

/-!
# Stock screener: query translation

A shallow embedding of `backend/llm.js` (`parseQueryToDSL`) together with the
JavaScript primitives it relies on: `String.prototype.includes` with a
one-character needle, `String.prototype.match` with the regular expression
`/\d+/`, indexing the match result, and `Number` applied to a string of
decimal digits.
-/

namespace StockScreener

/-! ## JavaScript values produced by the translator -/

/-- The Number values that `Number(s)` can produce for a non-empty string `s`
of ASCII decimal digits: a non-negative integer that is exactly representable
as an IEEE-754 binary64, or `Infinity`. -/
inductive JSNumber where
  | finite (n : Nat)
  | infinity
  deriving DecidableEq, Repr

/-- One entry of the `filters` array: `{ field, operator, value }`. -/
structure Filter where
  field : String
  operator : String
  value : JSNumber
  deriving DecidableEq, Repr

/-- The object returned by `parseQueryToDSL`: `{ filters: [...] }`. -/
structure DSL where
  filters : List Filter
  deriving DecidableEq, Repr

/-- Exceptions the translator can throw. The only one is the `TypeError`
raised by indexing `null` when `query.match(/\d+/)` finds nothing. -/
inductive JSError where
  | typeError
  deriving DecidableEq, Repr

/-- Outcome of a call: a returned object or a thrown exception. -/
inductive Outcome where
  | returns (dsl : DSL)
  | throws (e : JSError)
  deriving DecidableEq, Repr

/-! ## JavaScript primitives -/

/-- The test `query.includes(c)` for a one-character search string `c`. -/
def includes (query : List Char) (c : Char) : Bool :=
  query.any (fun x => x == c)

/-- The character class `\d` (no `u`/`v` flag): the ASCII digits `0`..`9`. -/
def isDigit (c : Char) : Bool :=
  decide (48 ≤ c.toNat) && decide (c.toNat ≤ 57)

/-- The call `query.match(/\d+/)` followed by `[0]`: the regular expression is tried
at each start index from the left; `\d+` is greedy, so the match is the
maximal run of digits beginning at the first digit. `none` is `null`. -/
def matchDigits (query : List Char) : Option (List Char) :=
  match query.dropWhile (fun c => !isDigit c) with
  | [] => none
  | rest => some (rest.takeWhile isDigit)

/-- Numeric value of a digit character. -/
def digitValue (c : Char) : Nat :=
  c.toNat - 48

/-- The mathematical value of a string of decimal digits. -/
def mathValue (ds : List Char) : Nat :=
  ds.foldl (fun acc c => 10 * acc + digitValue c) 0

/-- Number of low bits to drop so that `n` fits in 53 bits. -/
def dropBits : Nat → Nat → Nat
  | 0, _ => 0
  | fuel + 1, n => if n < 2 ^ 53 then 0 else dropBits fuel (n / 2) + 1

/-- Rounding of a natural number to the nearest binary64 value, ties to the
even significand. With `e` low bits dropped the significand `q1` is at most
`2 ^ 53`, so the result `q1 * 2 ^ e` stays below `2 ^ 1024` exactly when
`e < 971`, or `e = 971` and `q1 < 2 ^ 53`; otherwise it is `Infinity`. -/
def roundToDouble (n : Nat) : JSNumber :=
  let e := dropBits n n
  let q := n / 2 ^ e
  let r := n % 2 ^ e
  let q1 := if 2 ^ e < 2 * r ∨ (2 * r = 2 ^ e ∧ q % 2 = 1) then q + 1 else q
  if e < 971 ∨ (e = 971 ∧ q1 < 2 ^ 53) then JSNumber.finite (q1 * 2 ^ e) else JSNumber.infinity

/-- The conversion `Number(s)` for a string `s` of decimal digits. -/
def Number (s : List Char) : JSNumber :=
  roundToDouble (mathValue s)

/-! ## `backend/llm.js` -/

/-- The function `parseQueryToDSL(query)` of `backend/llm.js`. -/
def parseQueryToDSL (query : String) : Outcome :=
  if includes query.data '<' then
    match matchDigits query.data with
    | none => Outcome.throws JSError.typeError
    | some m =>
      Outcome.returns
        { filters := [{ field := "pe_ratio", operator := "<", value := Number m }] }
  else
    Outcome.returns { filters := [] }

/-! ## Decimal literals as the specification reads them -/

/-- A decimal literal read with standard decimal semantics: it denotes
`mantissa / 10 ^ scale`, negated when `negative` is set. -/
structure DecimalLiteral where
  negative : Bool
  mantissa : Nat
  scale : Nat
  deriving DecidableEq, Repr

/-- Standard decimal reading of an unsigned literal `digits [. digits]`:
the digits with the point removed, and the number of fractional digits. -/
def readUnsigned (L : List Char) : Option (Nat × Nat) :=
  let ip := L.takeWhile isDigit
  match L.dropWhile isDigit with
  | [] => if ip = [] then none else some (mathValue ip, 0)
  | c :: fp =>
    if c = '.' ∧ fp.all isDigit = true ∧ (ip ≠ [] ∨ fp ≠ []) then
      some (mathValue (ip ++ fp), fp.length)
    else none

/-- Standard decimal reading of a literal with an optional sign. -/
def readDecimal (L : List Char) : Option DecimalLiteral :=
  match L with
  | [] => none
  | c :: cs =>
    if c = '-' then (readUnsigned cs).map (fun p => ⟨true, p.1, p.2⟩)
    else if c = '+' then (readUnsigned cs).map (fun p => ⟨false, p.1, p.2⟩)
    else (readUnsigned (c :: cs)).map (fun p => ⟨false, p.1, p.2⟩)

/-- The natural number `v` is the number the literal denotes. -/
def DecimalLiteral.denotesNat (d : DecimalLiteral) (v : Nat) : Prop :=
  (d.negative = false ∨ d.mantissa = 0) ∧ v * 10 ^ d.scale = d.mantissa

instance (d : DecimalLiteral) (v : Nat) : Decidable (d.denotesNat v) := by
  unfold DecimalLiteral.denotesNat
  infer_instance

/-! ## Filter Evaluator

The routes file binds `GET /stocks` to `getStocks`, imported from
`../controllers/stocks.controller`; that file is not among the sources. The
evaluator is therefore written down from section 4.2 of the specification. -/

/-- A record or condition value: a numeric or a string scalar. -/
inductive Scalar where
  | num (x : ℚ)
  | str (s : String)
  deriving DecidableEq

/-- The comparison operators of the filter language. -/
inductive Operator where
  | lt
  | le
  | gt
  | ge
  | eq
  | ne
  deriving DecidableEq, Repr

/-- A structured condition `{ field, operator, value }`. -/
structure FilterCondition where
  field : String
  operator : Operator
  value : Scalar
  deriving DecidableEq

/-- An ordered sequence of conditions, combined with logical AND. -/
abbrev FilterSpec := List FilterCondition

/-- A stored record: a mapping from field name to scalar value. -/
abbrev StockRecord := List (String × Scalar)

/-- Modelled from the spec: the comparison step of the evaluator in
`controllers/stocks.controller.js` (absent). Numeric comparisons use numeric
ordering; string comparisons use exact equality for `=` and `!=`; any other
combination does not hold. -/
def compareScalar (op : Operator) (recordValue conditionValue : Scalar) : Bool :=
  match recordValue, conditionValue with
  | Scalar.num a, Scalar.num b =>
    match op with
    | Operator.lt => decide (a < b)
    | Operator.le => decide (a ≤ b)
    | Operator.gt => decide (b < a)
    | Operator.ge => decide (b ≤ a)
    | Operator.eq => decide (a = b)
    | Operator.ne => decide (a ≠ b)
  | Scalar.str a, Scalar.str b =>
    match op with
    | Operator.eq => decide (a = b)
    | Operator.ne => decide (a ≠ b)
    | _ => false
  | _, _ => false

/-- Modelled from the spec: whether one condition holds on a record, for the
evaluator in `controllers/stocks.controller.js` (absent). A field the record
lacks is a non-match. -/
def conditionHolds (record : StockRecord) (c : FilterCondition) : Bool :=
  match record.lookup c.field with
  | none => false
  | some v => compareScalar c.operator v c.value

/-- Modelled from the spec: a record matches iff all conditions hold, for the
evaluator in `controllers/stocks.controller.js` (absent). -/
def recordMatches (spec : FilterSpec) (record : StockRecord) : Bool :=
  spec.all (conditionHolds record)

/-- Modelled from the spec: the Filter Evaluator, that is the `getStocks`
controller of `controllers/stocks.controller.js`, which is absent from the
sources. It returns the records that match, in their input order. -/
def evaluate (spec : FilterSpec) (records : List StockRecord) : List StockRecord :=
  records.filter (recordMatches spec)

/-! ## Lemmas on the primitives -/

theorem includes_append (a b : List Char) (c : Char) :
    includes (a ++ b) c = (includes a c || includes b c) := by
  simp [includes]

theorem includes_eq_false_iff (q : List Char) (c : Char) :
    includes q c = false ↔ c ∉ q := by
  induction q with
  | nil => simp [includes]
  | cons x xs ih =>
    simp only [includes, List.any_cons, Bool.or_eq_false_iff, List.mem_cons, not_or] at ih ⊢
    rw [ih]
    constructor
    · rintro ⟨h1, h2⟩
      exact ⟨fun h => by simp [h] at h1, h2⟩
    · rintro ⟨h1, h2⟩
      refine ⟨?_, h2⟩
      simpa using fun h => h1 h.symm

theorem matchDigits_none (s : List Char) (h : ∀ c ∈ s, isDigit c = false) :
    matchDigits s = none := by
  have : s.dropWhile (fun c => !isDigit c) = [] := by
    rw [List.dropWhile_eq_nil_iff]
    intro c hc
    simp [h c hc]
  simp [matchDigits, this]

theorem takeWhile_run (run post : List Char) (hrun : ∀ c ∈ run, isDigit c = true)
    (hpost : ∀ c, post.head? = some c → isDigit c = false) :
    (run ++ post).takeWhile isDigit = run := by
  induction run with
  | nil =>
    cases post with
    | nil => rfl
    | cons c cs => simp [List.takeWhile, hpost c rfl]
  | cons d ds ih =>
    have hd : isDigit d = true := hrun d (List.mem_cons_self _ _)
    have ih1 := ih (fun c hc => hrun c (List.mem_cons_of_mem _ hc))
    rw [List.cons_append, List.takeWhile_cons, hd, if_pos rfl, ih1]

theorem matchDigits_run (pre run post : List Char)
    (hpre : ∀ c ∈ pre, isDigit c = false) (hne : run ≠ [])
    (hrun : ∀ c ∈ run, isDigit c = true)
    (hpost : ∀ c, post.head? = some c → isDigit c = false) :
    matchDigits (pre ++ run ++ post) = some run := by
  induction pre with
  | nil =>
    cases run with
    | nil => exact absurd rfl hne
    | cons d ds =>
      have hd : isDigit d = true := hrun d (List.mem_cons_self _ _)
      have := takeWhile_run (d :: ds) post hrun hpost
      simp only [List.cons_append] at this
      simp [matchDigits, List.dropWhile, hd, this]
  | cons p ps ih =>
    have hp : isDigit p = false := hpre p (List.mem_cons_self _ _)
    have ih1 := ih (fun c hc => hpre c (List.mem_cons_of_mem _ hc))
    simp only [matchDigits, List.cons_append, List.dropWhile, hp, Bool.not_false] at ih1 ⊢
    exact ih1

/-! ## Decimal printing of natural numbers, and `Number` on what it prints -/

theorem isDigit_digitChar (k : Nat) (hk : k < 10) : isDigit (Nat.digitChar k) = true := by
  interval_cases k <;> decide

theorem digitValue_digitChar (k : Nat) (hk : k < 10) : digitValue (Nat.digitChar k) = k := by
  interval_cases k <;> decide

theorem mathValue_append_singleton (ds : List Char) (c : Char) :
    mathValue (ds ++ [c]) = 10 * mathValue ds + digitValue c := by
  simp [mathValue, List.foldl_append]

theorem toDigitsCore_spec (fuel : Nat) : ∀ (n : Nat) (ds : List Char), n < fuel →
    ∃ run : List Char, Nat.toDigitsCore 10 fuel n ds = run ++ ds ∧ run ≠ [] ∧
      (∀ c ∈ run, isDigit c = true) ∧ mathValue run = n := by
  induction fuel with
  | zero => intro n ds h; exact absurd h (Nat.not_lt_zero _)
  | succ fuel ih =>
    intro n ds h
    have hmod : n % 10 < 10 := Nat.mod_lt _ (by decide)
    by_cases h0 : n / 10 = 0
    · refine ⟨[Nat.digitChar (n % 10)], ?_, by simp, ?_, ?_⟩
      · simp [Nat.toDigitsCore, h0]
      · intro c hc
        rw [List.mem_singleton] at hc
        rw [hc]
        exact isDigit_digitChar _ hmod
      · show 10 * 0 + digitValue (Nat.digitChar (n % 10)) = n
        rw [digitValue_digitChar _ hmod]
        omega
    · have hlt : n / 10 < fuel := by omega
      obtain ⟨run, h1, -, h3, h4⟩ := ih (n / 10) (Nat.digitChar (n % 10) :: ds) hlt
      refine ⟨run ++ [Nat.digitChar (n % 10)], ?_, by simp, ?_, ?_⟩
      · simp [Nat.toDigitsCore, h0, h1]
      · intro c hc
        rw [List.mem_append, List.mem_singleton] at hc
        rcases hc with hc | hc
        · exact h3 c hc
        · rw [hc]
          exact isDigit_digitChar _ hmod
      · rw [mathValue_append_singleton, h4, digitValue_digitChar _ hmod]
        omega

/-- The decimal numeral `toString n` is a non-empty string of digits whose
mathematical value is `n`. -/
theorem toString_nat_spec (n : Nat) :
    (toString n).data ≠ [] ∧ (∀ c ∈ (toString n).data, isDigit c = true) ∧
      mathValue (toString n).data = n := by
  obtain ⟨run, h1, h2, h3, h4⟩ := toDigitsCore_spec (n + 1) n [] (Nat.lt_succ_self n)
  have hdata : (toString n).data = run := by
    show (Nat.repr n).data = run
    simp [Nat.repr, Nat.toDigits, h1, List.asString]
  rw [hdata]
  exact ⟨h2, h3, h4⟩

/-! ## Rounding to binary64 -/

theorem pow_succ_two (k : Nat) : 2 ^ (k + 1) = 2 * 2 ^ k := by
  rw [pow_succ, mul_comm]

theorem dropBits_of_lt (fuel n : Nat) (h : n < 2 ^ 53) : dropBits fuel n = 0 := by
  cases fuel with
  | zero => rfl
  | succ f => rw [dropBits, if_pos h]

/-- With fuel at least `n`, the bits dropped leave a significand below `2 ^ 53`. -/
theorem dropBits_lt (fuel : Nat) : ∀ n : Nat, n ≤ fuel → n / 2 ^ dropBits fuel n < 2 ^ 53 := by
  induction fuel with
  | zero =>
    intro n h
    have : n = 0 := by omega
    subst this
    decide
  | succ fuel ih =>
    intro n h
    by_cases hn : n < 2 ^ 53
    · rw [dropBits, if_pos hn, pow_zero, Nat.div_one]
      exact hn
    · have h2 : n / 2 ≤ fuel := by omega
      have := ih (n / 2) h2
      rw [dropBits, if_neg hn, pow_succ_two, ← Nat.div_div_eq_div_mul]
      exact this

/-- A number that needs rounding keeps a full 53-bit significand. -/
theorem dropBits_ge (fuel : Nat) : ∀ n : Nat, 2 ^ 53 ≤ n → n ≤ fuel →
    2 ^ 52 ≤ n / 2 ^ dropBits fuel n := by
  induction fuel with
  | zero =>
    intro n h1 h2
    have : n = 0 := by omega
    subst this
    exact absurd h1 (by decide)
  | succ fuel ih =>
    intro n h1 h2
    have hn : ¬ n < 2 ^ 53 := by omega
    rw [dropBits, if_neg hn, pow_succ_two (dropBits fuel (n / 2)), ← Nat.div_div_eq_div_mul]
    by_cases hh : n / 2 < 2 ^ 53
    · rw [dropBits_of_lt fuel _ hh]
      simp only [pow_zero, Nat.div_one]
      omega
    · exact ih (n / 2) (by omega) (by omega)

/-- Integers up to `2 ^ 53` are binary64 values: rounding leaves them unchanged. -/
theorem roundToDouble_exact (n : Nat) (h : n ≤ 2 ^ 53) : roundToDouble n = JSNumber.finite n := by
  rcases Nat.lt_or_ge n (2 ^ 53) with hlt | hge
  · simp [roundToDouble, dropBits_of_lt n n hlt, Nat.mod_one]
  · have : n = 2 ^ 53 := le_antisymm h hge
    subst this
    decide

theorem Number_toString (n : Nat) (h : n ≤ 2 ^ 53) :
    Number (toString n).data = JSNumber.finite n := by
  rw [Number, (toString_nat_spec n).2.2, roundToDouble_exact n h]

/-! ## The translator on a query with a located digit run -/

/-- A query that contains `<` and splits as digit-free text, a non-empty run
of digits, and a rest not starting with a digit, translates to the single
condition on `pe_ratio` whose value is `Number` of that run. -/
theorem parse_of_run (q : String) (pre run post : List Char)
    (hq : q.data = pre ++ run ++ post)
    (hpre : ∀ c ∈ pre, isDigit c = false) (hne : run ≠ [])
    (hrun : ∀ c ∈ run, isDigit c = true)
    (hpost : ∀ c, post.head? = some c → isDigit c = false)
    (hlt : includes q.data '<' = true) :
    parseQueryToDSL q = Outcome.returns
      { filters := [{ field := "pe_ratio", operator := "<", value := Number run }] } := by
  have hm : matchDigits q.data = some run := by
    rw [hq]
    exact matchDigits_run pre run post hpre hne hrun hpost
  simp [parseQueryToDSL, hlt, hm]

/-- The same for a query written as text, a printed natural number, text. -/
theorem parse_of_nat (pre post : String) (n : Nat)
    (hpre : ∀ c ∈ pre.data, isDigit c = false)
    (hpost : ∀ c, post.data.head? = some c → isDigit c = false)
    (hlt : (includes pre.data '<' || includes post.data '<') = true) :
    parseQueryToDSL (pre ++ toString n ++ post) = Outcome.returns
      { filters := [{ field := "pe_ratio", operator := "<",
                      value := Number (toString n).data }] } := by
  obtain ⟨h1, h2, -⟩ := toString_nat_spec n
  have hnolt : includes (toString n).data '<' = false := by
    rw [includes_eq_false_iff]
    intro hmem
    have := h2 _ hmem
    revert this
    decide
  apply parse_of_run _ pre.data (toString n).data post.data (by simp) hpre h1 h2 hpost
  simp only [String.data_append, includes_append, hnolt, Bool.or_false]
  exact hlt

theorem includes_lt_toString (n : Nat) : includes (toString n).data '<' = false := by
  rw [includes_eq_false_iff]
  intro hmem
  have := (toString_nat_spec n).2.1 _ hmem
  revert this
  decide

/-- A query without the character `<` translates to the empty filter list. -/
theorem parse_no_lt (q : String) (h : includes q.data '<' = false) :
    parseQueryToDSL q = Outcome.returns { filters := [] } := by
  simp [parseQueryToDSL, h]

/-- A query with `<` and no digit makes the translator throw. -/
theorem parse_no_digit (q : String) (hlt : includes q.data '<' = true)
    (h : ∀ c ∈ q.data, isDigit c = false) :
    parseQueryToDSL q = Outcome.throws JSError.typeError := by
  simp [parseQueryToDSL, hlt, matchDigits_none q.data h]

/-- Every list of characters splits at its first maximal run of digits. -/
theorem first_run_split (s : List Char) (h : ∃ c ∈ s, isDigit c = true) :
    ∃ pre run post : List Char, s = pre ++ run ++ post ∧
      (∀ c ∈ pre, isDigit c = false) ∧ run ≠ [] ∧ (∀ c ∈ run, isDigit c = true) ∧
      (∀ c, post.head? = some c → isDigit c = false) := by
  induction s with
  | nil =>
    obtain ⟨c, hc, -⟩ := h
    exact absurd hc (List.not_mem_nil c)
  | cons x xs ih =>
    by_cases hx : isDigit x = true
    · refine ⟨[], (x :: xs).takeWhile isDigit, (x :: xs).dropWhile isDigit, ?_, ?_, ?_, ?_, ?_⟩
      · simp only [List.nil_append]
        exact (List.takeWhile_append_dropWhile isDigit (x :: xs)).symm
      · intro c hc
        exact absurd hc (List.not_mem_nil c)
      · simp [List.takeWhile_cons, hx]
      · intro c hc
        exact (List.mem_takeWhile_imp hc)
      · intro c hc
        cases hd : (x :: xs).dropWhile isDigit with
        | nil => rw [hd] at hc; simp at hc
        | cons y ys =>
          rw [hd] at hc
          simp only [List.head?_cons, Option.some.injEq] at hc
          subst hc
          have hne : (x :: xs).dropWhile isDigit ≠ [] := by rw [hd]; simp
          have := List.head_dropWhile_not isDigit (x :: xs) hne
          simpa [hd] using this
    · have hx0 : isDigit x = false := by simpa using hx
      obtain ⟨c, hc, hcd⟩ := h
      have hcx : c ∈ xs := by
        rcases List.mem_cons.mp hc with rfl | h1
        · rw [hx0] at hcd
          exact absurd hcd (by decide)
        · exact h1
      obtain ⟨pre, run, post, h1, h2, h3, h4, h5⟩ := ih ⟨c, hcx, hcd⟩
      refine ⟨x :: pre, run, post, by simp [h1], ?_, h3, h4, h5⟩
      intro d hd
      rcases List.mem_cons.mp hd with rfl | hd1
      · exact hx0
      · exact h2 d hd1

/-! ## The claims -/

/-- C1, as stated, fails: `Number` is a binary64, so for `n = 2 ^ 53 + 1` the
query `"pe_ratio < 9007199254740993"` yields the value `9007199254740992`,
not `n`. -/
theorem c1_value_not_exact_above_two_pow_53 :
    parseQueryToDSL ("pe_ratio < " ++ toString 9007199254740993) =
        Outcome.returns ⟨[⟨"pe_ratio", "<", JSNumber.finite 9007199254740992⟩]⟩ ∧
      parseQueryToDSL ("pe_ratio < " ++ toString 9007199254740993) ≠
        Outcome.returns ⟨[⟨"pe_ratio", "<", JSNumber.finite 9007199254740993⟩]⟩ := by
  decide

/-- C1 (amended): for every natural number `n ≤ 2 ^ 53` written in decimal,
`parseQueryToDSL("pe_ratio < n")` returns exactly one condition,
`{field: pe_ratio, operator: "<", value: n}`. -/
theorem c1_pe_ratio_lt (n : Nat) (h : n ≤ 2 ^ 53) :
    parseQueryToDSL ("pe_ratio < " ++ toString n) =
      Outcome.returns ⟨[⟨"pe_ratio", "<", JSNumber.finite n⟩]⟩ := by
  have := parse_of_nat "pe_ratio < " "" n (by decide) (by decide) (by decide)
  rw [String.append_empty, Number_toString n h] at this
  exact this

/-- C1 (amended) at `n = 15`: `"pe_ratio < 15"` yields the single condition
with value `15`. -/
theorem c1_pe_ratio_lt_witness :
    15 ≤ 2 ^ 53 ∧ parseQueryToDSL ("pe_ratio < " ++ toString 15) =
      Outcome.returns ⟨[⟨"pe_ratio", "<", JSNumber.finite 15⟩]⟩ :=
  ⟨by norm_num, c1_pe_ratio_lt 15 (by norm_num)⟩

/-- C2, as stated, fails: the two-clause query does not yield the two
conditions `[{pe_ratio, "<", 15}, {market_cap, ">", 1000000}]`. -/
theorem c2_two_clauses_not_two_conditions :
    parseQueryToDSL "pe_ratio < 15 and market_cap > 1000000" ≠
      Outcome.returns ⟨[⟨"pe_ratio", "<", JSNumber.finite 15⟩,
        ⟨"market_cap", ">", JSNumber.finite 1000000⟩]⟩ := by
  decide

/-- C2 (amended): translating `"pe_ratio < 15 and market_cap > 1000000"` yields
exactly one condition, `{pe_ratio, "<", 15}`; whatever follows
`"pe_ratio < 15 and "` is ignored. -/
theorem c2_second_clause_ignored :
    parseQueryToDSL "pe_ratio < 15 and market_cap > 1000000" =
        Outcome.returns ⟨[⟨"pe_ratio", "<", JSNumber.finite 15⟩]⟩ ∧
      ∀ rest : String, parseQueryToDSL ("pe_ratio < 15 and " ++ rest) =
        Outcome.returns ⟨[⟨"pe_ratio", "<", JSNumber.finite 15⟩]⟩ := by
  refine ⟨by decide, fun rest => ?_⟩
  have h := parse_of_run ("pe_ratio < 15 and " ++ rest) "pe_ratio < ".data "15".data
    (" and ".data ++ rest.data) (by simp [String.data_append]) (by decide) (by decide)
    (by decide) (by intro c hc; simp at hc; subst hc; decide) (by
      simp only [String.data_append, includes_append]
      rw [show includes "pe_ratio < 15 and ".data (Char.ofNat 60) = true by decide]
      rfl)
  rw [h]
  rfl

/-- C3, as stated, fails: `"foobar < 5"` raises nothing and returns a condition
on the field `pe_ratio`. -/
theorem c3_unknown_field_accepted :
    parseQueryToDSL "foobar < 5" =
        Outcome.returns ⟨[⟨"pe_ratio", "<", JSNumber.finite 5⟩]⟩ ∧
      ∀ e : JSError, parseQueryToDSL "foobar < 5" ≠ Outcome.throws e := by
  refine ⟨by decide, fun e => ?_⟩
  cases e
  decide

/-- C3 (amended): for every query `"f < n"` whose field token `f` holds no
decimal digit, known field or not, and every natural number `n ≤ 2 ^ 53`,
`parseQueryToDSL` signals no error and returns the single condition
`{pe_ratio, "<", n}`: the field token is not looked at. -/
theorem c3_field_token_not_checked (f : String) (n : Nat)
    (hf : ∀ c ∈ f.data, isDigit c = false) (h : n ≤ 2 ^ 53) :
    parseQueryToDSL (f ++ " < " ++ toString n) =
      Outcome.returns ⟨[⟨"pe_ratio", "<", JSNumber.finite n⟩]⟩ := by
  have := parse_of_nat (f ++ " < ") "" n
    (by
      intro c hc
      rw [String.data_append, List.mem_append] at hc
      rcases hc with hc | hc
      · exact hf c hc
      · revert c
        decide)
    (by decide)
    (by
      rw [String.data_append, includes_append]
      rw [show includes " < ".data (Char.ofNat 60) = true by decide]
      simp)
  rw [String.append_empty, Number_toString n h] at this
  exact this

/-- C3 (amended) at `f = "foobar"`, `n = 5`. -/
theorem c3_field_token_not_checked_witness :
    (∀ c ∈ "foobar".data, isDigit c = false) ∧ 5 ≤ 2 ^ 53 ∧
      parseQueryToDSL ("foobar" ++ " < " ++ toString 5) =
        Outcome.returns ⟨[⟨"pe_ratio", "<", JSNumber.finite 5⟩]⟩ :=
  ⟨by decide, by norm_num, c3_field_token_not_checked "foobar" 5 (by decide) (by norm_num)⟩

/-- A query made of `<`-free text followed by a printed natural number has no
`<`, so it translates to the empty filter list. -/
theorem parse_no_lt_nat (pre : String) (n : Nat) (hpre : includes pre.data '<' = false) :
    parseQueryToDSL (pre ++ toString n) = Outcome.returns { filters := [] } := by
  apply parse_no_lt
  rw [String.data_append, includes_append, hpre, includes_lt_toString]
  rfl

/-- C4, as stated, fails: `"pe_ratio > 15"` yields no condition at all, hence
none whose operator is `">"`. -/
theorem c4_gt_yields_no_condition :
    parseQueryToDSL "pe_ratio > 15" = Outcome.returns ⟨[]⟩ ∧
      ¬ ∃ c : Filter, parseQueryToDSL "pe_ratio > 15" = Outcome.returns ⟨[c]⟩ ∧
        c.operator = ">" := by
  refine ⟨by decide, ?_⟩
  rintro ⟨c, hc, -⟩
  rw [show parseQueryToDSL "pe_ratio > 15" = Outcome.returns ⟨[]⟩ by decide] at hc
  simp at hc

/-- C4 (amended): for every natural number `n ≤ 2 ^ 53`, the queries
`"pe_ratio < n"` and `"pe_ratio <= n"` both return the one condition
`{pe_ratio, "<", n}`, whose operator is `"<"`; the queries with the operator
tokens `>`, `>=`, `=` and `!=` return the empty FilterSpec. -/
theorem c4_operator_tokens (n : Nat) (h : n ≤ 2 ^ 53) :
    parseQueryToDSL ("pe_ratio < " ++ toString n) =
        Outcome.returns ⟨[⟨"pe_ratio", "<", JSNumber.finite n⟩]⟩ ∧
      parseQueryToDSL ("pe_ratio <= " ++ toString n) =
        Outcome.returns ⟨[⟨"pe_ratio", "<", JSNumber.finite n⟩]⟩ ∧
      parseQueryToDSL ("pe_ratio > " ++ toString n) = Outcome.returns ⟨[]⟩ ∧
      parseQueryToDSL ("pe_ratio >= " ++ toString n) = Outcome.returns ⟨[]⟩ ∧
      parseQueryToDSL ("pe_ratio = " ++ toString n) = Outcome.returns ⟨[]⟩ ∧
      parseQueryToDSL ("pe_ratio != " ++ toString n) = Outcome.returns ⟨[]⟩ := by
  have h1 := parse_of_nat "pe_ratio < " "" n (by decide) (by decide) (by decide)
  have h2 := parse_of_nat "pe_ratio <= " "" n (by decide) (by decide) (by decide)
  rw [String.append_empty, Number_toString n h] at h1 h2
  exact ⟨h1, h2, parse_no_lt_nat _ n (by decide), parse_no_lt_nat _ n (by decide),
    parse_no_lt_nat _ n (by decide), parse_no_lt_nat _ n (by decide)⟩

/-- C4 (amended) at `n = 15`. -/
theorem c4_operator_tokens_witness :
    15 ≤ 2 ^ 53 ∧
      parseQueryToDSL ("pe_ratio <= " ++ toString 15) =
        Outcome.returns ⟨[⟨"pe_ratio", "<", JSNumber.finite 15⟩]⟩ ∧
      parseQueryToDSL ("pe_ratio >= " ++ toString 15) = Outcome.returns ⟨[]⟩ :=
  ⟨by norm_num, (c4_operator_tokens 15 (by norm_num)).2.1,
    (c4_operator_tokens 15 (by norm_num)).2.2.2.1⟩

/-- C5, as stated, fails: `"pe_ratio < 15.5"` yields the value `15`, while the
literal `15.5` read with standard decimal semantics is `155 / 10`, which `15`
does not denote. -/
theorem c5_fraction_dropped :
    parseQueryToDSL "pe_ratio < 15.5" =
        Outcome.returns ⟨[⟨"pe_ratio", "<", JSNumber.finite 15⟩]⟩ ∧
      readDecimal "15.5".data = some ⟨false, 155, 1⟩ ∧
      ¬ DecimalLiteral.denotesNat ⟨false, 155, 1⟩ 15 := by
  decide

/-- C5 (amended): for every literal `L` that splits as digit-free text (a sign,
or nothing), a non-empty run `r` of decimal digits and a rest that does not
start with a digit (a fractional part such as `.5`, or nothing), the value of
the condition produced for `"pe_ratio < L"` is `Number(r)`, which is the
natural number `r` writes whenever that number is at most `2 ^ 53`: only the
first maximal run of digits of `L` is read, so a sign and what follows the
run are dropped (`15.5` gives `15`, `0.5` gives `0`, `-15` gives `15`). -/
theorem c5_first_digit_run_of_literal (L : String) (pre run post : List Char)
    (hL : L.data = pre ++ run ++ post)
    (hpre : ∀ c ∈ pre, isDigit c = false) (hne : run ≠ [])
    (hrun : ∀ c ∈ run, isDigit c = true)
    (hpost : ∀ c, post.head? = some c → isDigit c = false) :
    parseQueryToDSL ("pe_ratio < " ++ L) =
        Outcome.returns ⟨[⟨"pe_ratio", "<", Number run⟩]⟩ ∧
      (mathValue run ≤ 2 ^ 53 → parseQueryToDSL ("pe_ratio < " ++ L) =
        Outcome.returns ⟨[⟨"pe_ratio", "<", JSNumber.finite (mathValue run)⟩]⟩) := by
  have hparse : parseQueryToDSL ("pe_ratio < " ++ L) =
      Outcome.returns ⟨[⟨"pe_ratio", "<", Number run⟩]⟩ := by
    apply parse_of_run ("pe_ratio < " ++ L) ("pe_ratio < ".data ++ pre) run post
    · rw [String.data_append, hL]
      simp only [List.append_assoc]
    · have hfixed : ∀ c ∈ "pe_ratio < ".data, isDigit c = false := by decide
      intro c hc
      rcases List.mem_append.mp hc with hc | hc
      · exact hfixed c hc
      · exact hpre c hc
    · exact hne
    · exact hrun
    · exact hpost
    · rw [String.data_append, includes_append,
        show includes "pe_ratio < ".data (Char.ofNat 60) = true by decide]
      rfl
  refine ⟨hparse, fun hle => ?_⟩
  rw [hparse, Number, roundToDouble_exact _ hle]

/-- C5 (amended) at the literals `15.5`, `0.5` and `-15`: the values are `15`,
`0` and `15`. -/
theorem c5_first_digit_run_of_literal_witness :
    parseQueryToDSL ("pe_ratio < " ++ "15.5") =
        Outcome.returns ⟨[⟨"pe_ratio", "<", JSNumber.finite 15⟩]⟩ ∧
      parseQueryToDSL ("pe_ratio < " ++ "0.5") =
        Outcome.returns ⟨[⟨"pe_ratio", "<", JSNumber.finite 0⟩]⟩ ∧
      parseQueryToDSL ("pe_ratio < " ++ "-15") =
        Outcome.returns ⟨[⟨"pe_ratio", "<", JSNumber.finite 15⟩]⟩ :=
  ⟨(c5_first_digit_run_of_literal "15.5" [] "15".data ".5".data (by decide) (by decide)
      (by decide) (by decide) (by decide)).2 (by decide),
    (c5_first_digit_run_of_literal "0.5" [] "0".data ".5".data (by decide) (by decide)
      (by decide) (by decide) (by decide)).2 (by decide),
    (c5_first_digit_run_of_literal "-15" "-".data "15".data [] (by decide) (by decide)
      (by decide) (by decide) (by decide)).2 (by decide)⟩

/-- C6: for every query `"pe_ratio < w"` where the word `w` (empty or not)
contains no decimal digit, translation fails with an error (the `TypeError` thrown when the match
result `null` is indexed) and no FilterSpec is returned. -/
theorem c6_no_digit_throws (w : String) (hw : ∀ c ∈ w.data, isDigit c = false) :
    parseQueryToDSL ("pe_ratio < " ++ w) = Outcome.throws JSError.typeError ∧
      ∀ d : DSL, parseQueryToDSL ("pe_ratio < " ++ w) ≠ Outcome.returns d := by
  have hthrow : parseQueryToDSL ("pe_ratio < " ++ w) = Outcome.throws JSError.typeError := by
    apply parse_no_digit
    · rw [String.data_append, includes_append,
        show includes "pe_ratio < ".data (Char.ofNat 60) = true by decide]
      rfl
    · intro c hc
      rw [String.data_append, List.mem_append] at hc
      rcases hc with hc | hc
      · revert c
        decide
      · exact hw c hc
  refine ⟨hthrow, fun d hd => ?_⟩
  rw [hthrow] at hd
  exact Outcome.noConfusion hd

/-- C6 at `w = "abc"`. -/
theorem c6_no_digit_throws_witness :
    (∀ c ∈ "abc".data, isDigit c = false) ∧
      parseQueryToDSL ("pe_ratio < " ++ "abc") = Outcome.throws JSError.typeError :=
  ⟨by decide, (c6_no_digit_throws "abc" (by decide)).1⟩

/-- C7: for every query string that contains no operator token (none of the
characters `<`, `>`, `=`, `!` and neither word form `less than` /
`greater than`), `parseQueryToDSL` returns the empty FilterSpec
`{filters: []}` and signals no error. Only the absence of `<` is used. -/
theorem c7_no_operator_token_empty_spec (q : String)
    (hchars : ∀ c ∈ ['<', '>', '=', '!'], c ∉ q.data)
    (_hless : ¬ "less than".data <:+: q.data)
    (_hgreater : ¬ "greater than".data <:+: q.data) :
    parseQueryToDSL q = Outcome.returns ⟨[]⟩ ∧
      ∀ e : JSError, parseQueryToDSL q ≠ Outcome.throws e := by
  have hret : parseQueryToDSL q = Outcome.returns ⟨[]⟩ := by
    apply parse_no_lt
    rw [includes_eq_false_iff]
    exact hchars _ (List.mem_cons_self _ _)
  refine ⟨hret, fun e he => ?_⟩
  rw [hret] at he
  exact Outcome.noConfusion he

/-- C7 at the free-text query `"show me cheap stocks"`. -/
theorem c7_no_operator_token_empty_spec_witness :
    (∀ c ∈ ['<', '>', '=', '!'], c ∉ "show me cheap stocks".data) ∧
      ¬ "less than".data <:+: "show me cheap stocks".data ∧
      ¬ "greater than".data <:+: "show me cheap stocks".data ∧
      parseQueryToDSL "show me cheap stocks" = Outcome.returns ⟨[]⟩ :=
  ⟨by decide, by decide, by decide,
    (c7_no_operator_token_empty_spec "show me cheap stocks" (by decide) (by decide)
      (by decide)).1⟩

/-- C8: for every natural number `n`, `parseQueryToDSL("pe < n")`,
`parseQueryToDSL("p/e < n")` and `parseQueryToDSL("pe_ratio < n")` return the
same FilterSpec, whose single condition has field `pe_ratio`. -/
theorem c8_aliases_agree (n : Nat) :
    parseQueryToDSL ("pe < " ++ toString n) = parseQueryToDSL ("pe_ratio < " ++ toString n) ∧
      parseQueryToDSL ("p/e < " ++ toString n) =
        parseQueryToDSL ("pe_ratio < " ++ toString n) ∧
      ∃ c : Filter, parseQueryToDSL ("pe_ratio < " ++ toString n) = Outcome.returns ⟨[c]⟩ ∧
        c.field = "pe_ratio" := by
  have h1 := parse_of_nat "pe < " "" n (by decide) (by decide) (by decide)
  have h2 := parse_of_nat "p/e < " "" n (by decide) (by decide) (by decide)
  have h3 := parse_of_nat "pe_ratio < " "" n (by decide) (by decide) (by decide)
  rw [String.append_empty] at h1 h2 h3
  exact ⟨by rw [h1, h3], by rw [h2, h3], _, h3, rfl⟩

/-- C9: the Filter Evaluator applied to the empty FilterSpec is the identity:
for every collection of records `R`, `evaluate([], R)` is `R`, the same
records in the same order. -/
theorem c9_evaluate_empty_spec (R : List StockRecord) : evaluate [] R = R := by
  simp [evaluate, recordMatches]

/-- C10, as stated, fails: in `"top 9007199254740993 stocks with pe < 15"` the
first maximal run of digits writes `2 ^ 53 + 1`, and the value returned is the
binary64 `9007199254740992`. -/
theorem c10_value_rounded :
    parseQueryToDSL "top 9007199254740993 stocks with pe < 15" =
        Outcome.returns ⟨[⟨"pe_ratio", "<", JSNumber.finite 9007199254740992⟩]⟩ ∧
      parseQueryToDSL "top 9007199254740993 stocks with pe < 15" ≠
        Outcome.returns ⟨[⟨"pe_ratio", "<", JSNumber.finite 9007199254740993⟩]⟩ := by
  decide

/-- C10 (amended): every query string that contains `<` and at least one ASCII
decimal digit splits as digit-free text, a non-empty run of digits (the first
maximal run) and a rest not starting with a digit, and `parseQueryToDSL`
returns exactly one condition, with field `pe_ratio`, operator `"<"` and value
`Number` of that run, whatever else the string holds; the value is the natural
number the run writes whenever that number is at most `2 ^ 53`. -/
theorem c10_first_digit_run (q : String) (hlt : '<' ∈ q.data)
    (hdigit : ∃ c ∈ q.data, isDigit c = true) :
    ∃ pre run post : List Char, q.data = pre ++ run ++ post ∧
      (∀ c ∈ pre, isDigit c = false) ∧ run ≠ [] ∧ (∀ c ∈ run, isDigit c = true) ∧
      (∀ c, post.head? = some c → isDigit c = false) ∧
      parseQueryToDSL q = Outcome.returns ⟨[⟨"pe_ratio", "<", Number run⟩]⟩ ∧
      (mathValue run ≤ 2 ^ 53 → Number run = JSNumber.finite (mathValue run)) := by
  obtain ⟨pre, run, post, h1, h2, h3, h4, h5⟩ := first_run_split q.data hdigit
  have hinc : includes q.data '<' = true := by
    by_contra hc
    rw [Bool.not_eq_true, includes_eq_false_iff] at hc
    exact hc hlt
  exact ⟨pre, run, post, h1, h2, h3, h4, h5, parse_of_run q pre run post h1 h2 h3 h4 h5 hinc,
    fun hle => roundToDouble_exact _ hle⟩

/-- C10 (amended) at `"top 5 stocks with pe < 15"`: the split exists and the
value is `Number` of its digit run. -/
theorem c10_first_digit_run_witness :
    '<' ∈ "top 5 stocks with pe < 15".data ∧
      (∃ c ∈ "top 5 stocks with pe < 15".data, isDigit c = true) ∧
      ∃ pre run post : List Char, "top 5 stocks with pe < 15".data = pre ++ run ++ post ∧
        (∀ c ∈ pre, isDigit c = false) ∧ run ≠ [] ∧ (∀ c ∈ run, isDigit c = true) ∧
        (∀ c, post.head? = some c → isDigit c = false) ∧
        parseQueryToDSL "top 5 stocks with pe < 15" =
          Outcome.returns ⟨[⟨"pe_ratio", "<", Number run⟩]⟩ ∧
        (mathValue run ≤ 2 ^ 53 → Number run = JSNumber.finite (mathValue run)) :=
  ⟨by decide, ⟨'5', by decide, by decide⟩,
    c10_first_digit_run "top 5 stocks with pe < 15" (by decide) ⟨'5', by decide, by decide⟩⟩

end StockScreener
